import Mathlib

/-!
Verification development for the epidemic-spread simulator (src/simu.py,
src/lattice-sir.py): a shallow embedding of the stochastic simulation core
(SIR transmission step, gradient-biased mobility step, gradient-field
initialization, configuration handling and the epoch loop) together with
proofs and refutations of the specification's claims.

Randomness is embedded explicitly: the global numpy random stream
(np.random.rand) becomes a function `r : ℕ → ℚ` together with a cursor that
each draw advances; hypotheses `0 ≤ r k < 1` state that draws are uniform
variates in [0,1).  Machine floats are modelled by exact rationals (reals for
the Gaussian field).
-/

namespace EpidSpread

/-- Status constant `SUSCEPTIBLE = 0` (simu.py line 31). -/
def SUSCEPTIBLE : ℕ := 0

/-- Status constant `INFECTED = 1` (simu.py line 32). -/
def INFECTED : ℕ := 1

/-- Status constant `RECOVERED = 2` (simu.py line 33). -/
def RECOVERED : ℕ := 2

/-- Running partial sums: `psum l j` is the sum of the first `j` entries of
`l`.  `np.cumsum l` lists `psum l 1, ..., psum l (length l)`. -/
def psum (l : List ℚ) (j : ℕ) : ℚ := (l.take j).sum

/-- `np.cumsum`: the list of running partial sums of `l` (same length). -/
def cumsum (l : List ℚ) : List ℚ :=
  (List.range l.length).map (fun j => psum l (j + 1))

/-- `np.searchsorted(a, v)` (default side left) on a sorted array `a`:
the leftmost insertion index for `v`, i.e. the number of entries `< v`. -/
def searchsorted (a : List ℚ) (v : ℚ) : ℕ :=
  a.countP (fun c => decide (c < v))

/-- `fast_random_choice(lst, probs)` (simu.py lines 73-74):
`lst[np.searchsorted(probs.cumsum(), np.random.rand())]`, with the uniform
draw passed explicitly; `none` models the IndexError raised when the
searchsorted index falls out of range. -/
def fast_random_choice (lst : List ℕ) (probs : List ℚ) (u : ℚ) : Option ℕ :=
  lst.get? (searchsorted (cumsum probs) u)

/-- Inverse-CDF categorical sampling, the documented semantics of
`np.random.choice(lst, p=probs)` which `fast_random_choice` replaces in the
mobility step: map the uniform draw `u` to the least index whose cumulative
probability exceeds `u` (equal to the count of cumulative sums `≤ u` because
those form a monotone prefix). -/
def categorical_idx (probs : List ℚ) (u : ℚ) : ℕ :=
  (List.range probs.length).countP (fun j => decide (psum probs (j + 1) ≤ u))

/-- `status[idxs] = v` for a numpy integer-index array: set every listed
position of `l` to `v` (all indices used by the source lie in range). -/
def setAll (idxs : List ℕ) (v : ℕ) (l : List ℕ) : List ℕ :=
  idxs.foldl (fun acc j => acc.set j v) l

/-- The body of the per-vertex loop in `step_transmission` (simu.py lines
522-542): occupant statuses are read from the epoch-start snapshot
`statuses_fixed`, the per-vertex susceptible/infected counts drive the
number of uniform draws, and the index-based updates are applied to the
running `status` array.  The accumulator carries the running status list,
the per-vertex `ntransmissions` list, and the random-stream cursor. -/
def transmission_vertex (statuses_fixed : List ℕ) (beta gamma : ℚ)
    (particles : List (List ℕ)) (r : ℕ → ℚ)
    (acc : List ℕ × List ℕ × ℕ) (i : ℕ) : List ℕ × List ℕ × ℕ :=
  let status := acc.1
  let ntransmissions := acc.2.1
  let k := acc.2.2
  let statuses := (particles.getD i []).map (fun p => statuses_fixed.getD p 0)
  let nsusceptible := statuses.countP (fun s => s == SUSCEPTIBLE)
  let ninfected := statuses.countP (fun s => s == INFECTED)
  let indsusceptible :=
    (List.range statuses_fixed.length).filter
      (fun j => statuses_fixed.getD j 0 == SUSCEPTIBLE)
  let indinfected :=
    (List.range statuses_fixed.length).filter
      (fun j => statuses_fixed.getD j 0 == INFECTED)
  let x := (List.range (nsusceptible * ninfected)).map (fun t => r (k + t))
  let y := (List.range ninfected).map
    (fun t => r (k + nsusceptible * ninfected + t))
  let numnewinfected := min (x.countP (fun u => decide (u ≤ beta))) nsusceptible
  let numnewrecovered := min (y.countP (fun u => decide (u ≤ gamma))) ninfected
  let ntransmissions' := ntransmissions.set i numnewinfected
  let status' := setAll (indsusceptible.take numnewinfected) INFECTED status
  let status'' := setAll (indinfected.take numnewrecovered) RECOVERED status'
  (status'', ntransmissions', k + nsusceptible * ninfected + ninfected)

/-- `step_transmission` (simu.py lines 505-543): one transmission epoch.
`status` is the agent-status array, `particles` the per-vertex occupant
lists (one entry per graph vertex, so the vertex count is
`particles.length`), `r`/`k` the random stream and its cursor.  Returns the
updated status list, the per-vertex `ntransmissions` counts of this epoch,
and the advanced cursor. -/
def step_transmission (status : List ℕ) (beta gamma : ℚ)
    (particles : List (List ℕ)) (r : ℕ → ℚ) (k : ℕ) :
    List ℕ × List ℕ × ℕ :=
  (List.range particles.length).foldl
    (transmission_vertex status beta gamma particles r)
    (status, List.replicate particles.length 0, k)

theorem length_setAll (idxs : List ℕ) (v : ℕ) (l : List ℕ) :
    (setAll idxs v l).length = l.length := by
  induction idxs generalizing l with
  | nil => rfl
  | cons j rest ih => simpa [setAll] using (ih (l.set j v)).trans (by simp)

theorem getD_set' (l : List ℕ) (n v d a : ℕ) :
    (l.set n v).getD a d = if a = n ∧ n < l.length then v else l.getD a d := by
  by_cases hn : a = n
  · subst hn
    by_cases h : a < l.length
    · simp [List.getD_eq_getElem?_getD, List.getElem?_set_self, h]
    · simp [h, List.set_eq_of_length_le (le_of_not_lt h)]
  · simp [List.getD_eq_getElem?_getD, List.getElem?_set_ne (Ne.symm hn), hn]

theorem getD_setAll (idxs : List ℕ) (v : ℕ) (l : List ℕ) (a : ℕ) :
    (setAll idxs v l).getD a 0 =
      if a ∈ idxs ∧ a < l.length then v else l.getD a 0 := by
  induction idxs generalizing l with
  | nil => simp [setAll]
  | cons j rest ih =>
    have hstep : setAll (j :: rest) v l = setAll rest v (l.set j v) := rfl
    rw [hstep, ih]
    simp only [List.length_set]
    rw [getD_set']
    by_cases hl : a < l.length
    · by_cases hj : a = j
      · subst hj
        by_cases hmem : a ∈ rest <;> simp [hmem, hl]
      · by_cases hmem : a ∈ rest <;> simp [hmem, hl, hj]
    · by_cases hj : a = j
      · subst hj; simp [hl]
      · simp [hl, hj]

/-- Forward-only evolution of the status array relative to the epoch-start
snapshot: each agent either keeps its status or moves one step along
S→I→R. -/
def sir_forward (snap cur : List ℕ) : Prop :=
  cur.length = snap.length ∧ ∀ a : ℕ,
    (snap.getD a 0 = SUSCEPTIBLE →
      cur.getD a 0 = SUSCEPTIBLE ∨ cur.getD a 0 = INFECTED) ∧
    (snap.getD a 0 = INFECTED →
      cur.getD a 0 = INFECTED ∨ cur.getD a 0 = RECOVERED) ∧
    (snap.getD a 0 = RECOVERED → cur.getD a 0 = RECOVERED)

theorem sir_forward_refl (snap : List ℕ) : sir_forward snap snap := by
  refine ⟨rfl, fun a => ⟨fun h => Or.inl h, fun h => Or.inl h, fun h => h⟩⟩

theorem mem_filter_status (snap : List ℕ) (s a : ℕ)
    (h : a ∈ (List.range snap.length).filter (fun j => snap.getD j 0 == s)) :
    a < snap.length ∧ snap.getD a 0 = s := by
  have h1 := List.of_mem_filter h
  have h2 := List.mem_range.mp (List.mem_of_mem_filter h)
  exact ⟨h2, by simpa using h1⟩

theorem sir_forward_sets (snap cur : List ℕ) (ksus kinf : ℕ)
    (h : sir_forward snap cur) :
    sir_forward snap
      (setAll
        (((List.range snap.length).filter
            (fun j => snap.getD j 0 == INFECTED)).take kinf) RECOVERED
        (setAll
          (((List.range snap.length).filter
              (fun j => snap.getD j 0 == SUSCEPTIBLE)).take ksus) INFECTED
          cur)) := by
  obtain ⟨hlen, hfwd⟩ := h
  constructor
  · rw [length_setAll, length_setAll]; exact hlen
  intro a
  rw [getD_setAll, getD_setAll, length_setAll, hlen]
  by_cases hR : a ∈ ((List.range snap.length).filter
      (fun j => snap.getD j 0 == INFECTED)).take kinf ∧ a < snap.length
  · have hsnap : snap.getD a 0 = INFECTED :=
      (mem_filter_status snap INFECTED a (List.mem_of_mem_take hR.1)).2
    rw [if_pos hR]
    refine ⟨fun h0 => ?_, fun _ => Or.inr rfl, fun h2 => ?_⟩
    · exact absurd (h0.symm.trans hsnap) (by decide)
    · exact absurd (h2.symm.trans hsnap) (by decide)
  · by_cases hS : a ∈ ((List.range snap.length).filter
        (fun j => snap.getD j 0 == SUSCEPTIBLE)).take ksus ∧ a < snap.length
    · have hsnap : snap.getD a 0 = SUSCEPTIBLE :=
        (mem_filter_status snap SUSCEPTIBLE a (List.mem_of_mem_take hS.1)).2
      rw [if_neg hR, if_pos hS]
      refine ⟨fun _ => Or.inr rfl, fun h1 => ?_, fun h2 => ?_⟩
      · exact absurd (h1.symm.trans hsnap) (by decide)
      · exact absurd (h2.symm.trans hsnap) (by decide)
    · rw [if_neg hR, if_neg hS]
      exact hfwd a

theorem sir_forward_vertex (snap : List ℕ) (beta gamma : ℚ)
    (particles : List (List ℕ)) (r : ℕ → ℚ)
    (acc : List ℕ × List ℕ × ℕ) (i : ℕ)
    (h : sir_forward snap acc.1) :
    sir_forward snap (transmission_vertex snap beta gamma particles r acc i).1 :=
  sir_forward_sets snap acc.1 _ _ h

theorem sir_forward_foldl (snap : List ℕ) (beta gamma : ℚ)
    (particles : List (List ℕ)) (r : ℕ → ℚ) (L : List ℕ)
    (acc : List ℕ × List ℕ × ℕ) (h : sir_forward snap acc.1) :
    sir_forward snap
      (L.foldl (transmission_vertex snap beta gamma particles r) acc).1 := by
  induction L generalizing acc with
  | nil => exact h
  | cons i rest ih =>
    exact ih _ (sir_forward_vertex snap beta gamma particles r acc i h)

/-- C5: the transmission step only moves agents forward along S→I→R: an
agent susceptible at epoch start ends the epoch S or I, an infected agent
ends I or R, and a recovered agent stays R; no I→S, R→S or R→I transition
ever occurs. -/
theorem step_transmission_forward_only (status : List ℕ) (beta gamma : ℚ)
    (particles : List (List ℕ)) (r : ℕ → ℚ) (k : ℕ) (a : ℕ) :
    (status.getD a 0 = SUSCEPTIBLE →
      (step_transmission status beta gamma particles r k).1.getD a 0 = SUSCEPTIBLE ∨
      (step_transmission status beta gamma particles r k).1.getD a 0 = INFECTED) ∧
    (status.getD a 0 = INFECTED →
      (step_transmission status beta gamma particles r k).1.getD a 0 = INFECTED ∨
      (step_transmission status beta gamma particles r k).1.getD a 0 = RECOVERED) ∧
    (status.getD a 0 = RECOVERED →
      (step_transmission status beta gamma particles r k).1.getD a 0 = RECOVERED) :=
  (sir_forward_foldl status beta gamma particles r _ _
    (sir_forward_refl status)).2 a

/-- Witness for C5: on a concrete one-vertex population with one agent of
each status, the susceptible agent ends S or I, the infected one ends I or
R, and the recovered one stays R. -/
theorem step_transmission_forward_only_witness :
    ((step_transmission [0, 1, 2] 0 1 [[0, 1, 2]] (fun _ => 1/2) 0).1.getD 0 0 = SUSCEPTIBLE ∨
      (step_transmission [0, 1, 2] 0 1 [[0, 1, 2]] (fun _ => 1/2) 0).1.getD 0 0 = INFECTED) ∧
    ((step_transmission [0, 1, 2] 0 1 [[0, 1, 2]] (fun _ => 1/2) 0).1.getD 1 0 = INFECTED ∨
      (step_transmission [0, 1, 2] 0 1 [[0, 1, 2]] (fun _ => 1/2) 0).1.getD 1 0 = RECOVERED) ∧
    (step_transmission [0, 1, 2] 0 1 [[0, 1, 2]] (fun _ => 1/2) 0).1.getD 2 0 = RECOVERED :=
  ⟨(step_transmission_forward_only [0, 1, 2] 0 1 [[0, 1, 2]] (fun _ => 1/2) 0 0).1 rfl,
   (step_transmission_forward_only [0, 1, 2] 0 1 [[0, 1, 2]] (fun _ => 1/2) 0 1).2.1 rfl,
   (step_transmission_forward_only [0, 1, 2] 0 1 [[0, 1, 2]] (fun _ => 1/2) 0 2).2.2 rfl⟩

/-- C1: the code violates locality of transmission.  With
`status = [S, S, I]` and occupants `[[0], [1, 2]]` (agent 0 alone at vertex
0; susceptible agent 1 and infected agent 2 co-located at vertex 1) and
β = 1, the draw at vertex 1 produces one new infection (the count, capped
at s, is correct), but the agent actually flipped to I is agent 0 — taken
from the prefix of the *global* susceptible index list
`np.where(statuses_fixed==SUSCEPTIBLE)` — which is not an occupant of
vertex 1, while the susceptible occupant, agent 1, stays S. -/
theorem step_transmission_infects_nonoccupant :
    step_transmission [0, 0, 1] 1 0 [[0], [1, 2]] (fun _ => 1/2) 0 =
      ([1, 0, 1], [0, 1], 2) ∧
    (0 : ℕ) ∉ [1, 2] ∧
    ([0, 0, 1] : List ℕ).getD 0 0 = SUSCEPTIBLE ∧
    ([1, 0, 1] : List ℕ).getD 0 0 = INFECTED ∧
    ([1, 0, 1] : List ℕ).getD 1 0 = SUSCEPTIBLE := by
  refine ⟨?_, by decide, by decide, by decide, by decide⟩
  norm_num [step_transmission, transmission_vertex, setAll, SUSCEPTIBLE, INFECTED,
    RECOVERED, List.range_succ, List.countP_cons, List.filter, List.replicate]

/-- C2: the per-vertex transmission counters double count.  With
`status = [S, I, S, I]`, occupants `[[0, 1], [2, 3]]` and β = 1, each
vertex records one new infection (counters total 2), but both updates hit
the same prefix of the global susceptible index list, so the only agent
that actually changed from S to I is agent 0 (agent 2 stays S): the total
added to the counters (2) exceeds the number of distinct S→I agents (1). -/
theorem step_transmission_counter_overcounts :
    step_transmission [0, 1, 0, 1] 1 0 [[0, 1], [2, 3]] (fun _ => 1/2) 0 =
      ([1, 1, 0, 1], [1, 1], 4) ∧
    (List.range 4).countP
      (fun a => (([0, 1, 0, 1] : List ℕ).getD a 0 == SUSCEPTIBLE) &&
        (([1, 1, 0, 1] : List ℕ).getD a 0 == INFECTED)) = 1 ∧
    ([1, 1] : List ℕ).sum = 2 := by
  refine ⟨?_, by decide, by decide⟩
  norm_num [step_transmission, transmission_vertex, setAll, SUSCEPTIBLE, INFECTED,
    RECOVERED, List.range_succ, List.countP_cons, List.filter, List.replicate]

/-- Replace the `n`-th list of `ps` by `f` applied to it (out-of-range: no
change; the source only ever addresses valid vertex ids). -/
def modifyAt (f : List ℕ → List ℕ) : ℕ → List (List ℕ) → List (List ℕ)
  | _, [] => []
  | 0, l :: ls => f l :: ls
  | n + 1, l :: ls => l :: modifyAt f n ls

/-- `particles[i].remove(partic); particles[neighid].append(partic)`
(simu.py lines 500-501): Python `list.remove` deletes the first occurrence
of the value (`List.erase`), `append` adds at the end. -/
def moveParticle (ps : List (List ℕ)) (i neighid partic : ℕ) : List (List ℕ) :=
  modifyAt (fun l => l ++ [partic]) neighid (modifyAt (fun l => l.erase partic) i ps)

/-- The per-vertex neighbor-selection probabilities of `step_mobility`
(simu.py lines 486-491): the neighbors' gradients normalized to sum 1, or
the uniform vector `np.ones(n)/n` when they sum to zero. -/
def vertex_probs (gradient : ℕ → ℚ) (neighids : List ℕ) : List ℚ :=
  let gradients := neighids.map gradient
  if gradients.sum = 0 then
    List.replicate neighids.length (1 / (neighids.length : ℚ))
  else gradients.map (fun x => x / gradients.sum)

/-- The inner loop of `step_mobility` (simu.py lines 493-501) over the
snapshot occupant list of vertex `i`: each particle first consumes a
uniform draw (stay if it is ≤ `autoloop_prob`), then — if the vertex has
neighbors — consumes a second draw to pick the destination through
`fast_random_choice`; `none` propagates the IndexError that an
out-of-range choice would raise.  The accumulator carries the mutable
particle lists and the random-stream cursor. -/
def move_particles (autoloop_prob : ℚ) (r : ℕ → ℚ) (i : ℕ)
    (neighids : List ℕ) (probs : List ℚ) :
    List ℕ → List (List ℕ) × ℕ → Option (List (List ℕ) × ℕ)
  | [], st => some st
  | partic :: rest, (ps, k) =>
    if r k ≤ autoloop_prob then
      move_particles autoloop_prob r i neighids probs rest (ps, k + 1)
    else if neighids = [] then
      move_particles autoloop_prob r i neighids probs rest (ps, k + 1)
    else
      match fast_random_choice neighids probs (r (k + 1)) with
      | none => none
      | some neighid =>
        move_particles autoloop_prob r i neighids probs rest
          (moveParticle ps i neighid partic, k + 2)

/-- The outer loop of `step_mobility` (simu.py lines 482-501) over the
vertex ids, reading each vertex's occupants from the deep-copied snapshot
`particles_fixed`. -/
def mobility_vertices (nbrs : ℕ → List ℕ) (gradient : ℕ → ℚ)
    (autoloop_prob : ℚ) (r : ℕ → ℚ) (particles_fixed : List (List ℕ)) :
    List ℕ → List (List ℕ) × ℕ → Option (List (List ℕ) × ℕ)
  | [], st => some st
  | i :: rest, st =>
    (move_particles autoloop_prob r i (nbrs i)
        (vertex_probs gradient (nbrs i)) (particles_fixed.getD i []) st).bind
      (mobility_vertices nbrs gradient autoloop_prob r particles_fixed rest)

/-- `step_mobility` (simu.py lines 469-502): one mobility epoch.  The graph
is given by its neighbor lists `nbrs` and per-vertex `gradient` attribute;
`particles` doubles as the deep-copied iteration snapshot and as the
initial state of the mutated lists; `k` is the random-stream cursor. -/
def step_mobility (nbrs : ℕ → List ℕ) (gradient : ℕ → ℚ)
    (particles : List (List ℕ)) (autoloop_prob : ℚ) (r : ℕ → ℚ) (k : ℕ) :
    Option (List (List ℕ) × ℕ) :=
  mobility_vertices nbrs gradient autoloop_prob r particles
    (List.range particles.length) (particles, k)

/-- The multiset of all agent ids in the per-vertex occupant lists. -/
def mjoin (ps : List (List ℕ)) : Multiset ℕ :=
  (ps.map (fun l => (l : Multiset ℕ))).sum

theorem mjoin_cons (l : List ℕ) (t : List (List ℕ)) :
    mjoin (l :: t) = (l : Multiset ℕ) + mjoin t := by
  simp [mjoin]

theorem mjoin_eq_coe_flatten (ps : List (List ℕ)) :
    mjoin ps = (ps.flatten : Multiset ℕ) := by
  induction ps with
  | nil => rfl
  | cons l t ih =>
    rw [mjoin_cons, ih, show (l :: t).flatten = l ++ t.flatten from rfl]
    exact (Multiset.coe_add l t.flatten).symm

theorem modifyAt_nil (f : List ℕ → List ℕ) (n : ℕ) : modifyAt f n [] = [] := by
  cases n <;> rfl

theorem length_modifyAt (f : List ℕ → List ℕ) (n : ℕ) (ps : List (List ℕ)) :
    (modifyAt f n ps).length = ps.length := by
  induction ps generalizing n with
  | nil => rw [modifyAt_nil]
  | cons l t ih =>
    cases n with
    | zero => rfl
    | succ m => simpa [modifyAt] using ih m

theorem getD_modifyAt (f : List ℕ → List ℕ) (n : ℕ) (ps : List (List ℕ)) (j : ℕ) :
    (modifyAt f n ps).getD j [] =
      if j = n ∧ n < ps.length then f (ps.getD j []) else ps.getD j [] := by
  induction ps generalizing n j with
  | nil => rw [modifyAt_nil]; simp
  | cons l t ih =>
    cases n with
    | zero =>
      cases j with
      | zero => simp [modifyAt]
      | succ j' => simp [modifyAt]
    | succ m =>
      cases j with
      | zero => simp [modifyAt]
      | succ j' =>
        simp only [modifyAt, List.getD_cons_succ, List.length_cons, ih]
        by_cases h1 : j' = m <;> simp [h1, Nat.succ_lt_succ_iff]

theorem mjoin_modifyAt (f : List ℕ → List ℕ) (n : ℕ) (ps : List (List ℕ))
    (hn : n < ps.length) :
    mjoin (modifyAt f n ps) + (ps.getD n [] : Multiset ℕ) =
      mjoin ps + (f (ps.getD n []) : Multiset ℕ) := by
  induction ps generalizing n with
  | nil => simp at hn
  | cons l t ih =>
    cases n with
    | zero =>
      show mjoin (f l :: t) + (l : Multiset ℕ) = mjoin (l :: t) + (f l : Multiset ℕ)
      rw [mjoin_cons, mjoin_cons]
      abel
    | succ m =>
      have hm : m < t.length := Nat.succ_lt_succ_iff.mp hn
      show mjoin (l :: modifyAt f m t) + (t.getD m [] : Multiset ℕ) =
        mjoin (l :: t) + (f (t.getD m []) : Multiset ℕ)
      rw [mjoin_cons, mjoin_cons, add_assoc, add_assoc, ih m hm]

theorem mjoin_moveParticle (ps : List (List ℕ)) (i neighid partic : ℕ)
    (hp : partic ∈ ps.getD i []) (hi : i < ps.length) (hd : neighid < ps.length) :
    mjoin (moveParticle ps i neighid partic) = mjoin ps := by
  have herase : ((ps.getD i [] : List ℕ) : Multiset ℕ) =
      partic ::ₘ ((ps.getD i []).erase partic : Multiset ℕ) := by
    exact_mod_cast Multiset.coe_eq_coe.mpr (List.perm_cons_erase hp)
  have h1 := mjoin_modifyAt (fun l => l.erase partic) i ps hi
  set ps1 := modifyAt (fun l => l.erase partic) i ps with hps1
  have hlen1 : ps1.length = ps.length := length_modifyAt _ _ _
  have h2 := mjoin_modifyAt (fun l => l ++ [partic]) neighid ps1 (by omega)
  have hstep1 : mjoin ps1 + (partic ::ₘ ((ps.getD i []).erase partic : Multiset ℕ)) =
      mjoin ps + (((ps.getD i []).erase partic : List ℕ) : Multiset ℕ) := by
    rw [← herase]; exact h1
  have hstep1' : mjoin ps1 + {partic} = mjoin ps := by
    have h4 : (mjoin ps1 + {partic}) + (((ps.getD i []).erase partic : List ℕ) : Multiset ℕ) =
        mjoin ps + (((ps.getD i []).erase partic : List ℕ) : Multiset ℕ) := by
      rw [← hstep1, add_assoc, Multiset.singleton_add]
    exact add_right_cancel h4
  have hstep2 : mjoin (moveParticle ps i neighid partic) = mjoin ps1 + {partic} := by
    have happ : ((ps1.getD neighid [] ++ [partic] : List ℕ) : Multiset ℕ) =
        (ps1.getD neighid [] : Multiset ℕ) + {partic} := Multiset.coe_add _ _
    have h3 : mjoin (modifyAt (fun l => l ++ [partic]) neighid ps1) +
        (ps1.getD neighid [] : Multiset ℕ) =
        (mjoin ps1 + {partic}) + (ps1.getD neighid [] : Multiset ℕ) := by
      rw [h2, happ]
      abel
    have h5 := add_right_cancel h3
    rw [moveParticle, ← hps1]
    exact h5
  rw [hstep2, hstep1']

theorem length_moveParticle (ps : List (List ℕ)) (i neighid partic : ℕ) :
    (moveParticle ps i neighid partic).length = ps.length := by
  simp [moveParticle, length_modifyAt]

theorem mem_moveParticle_of_ne (ps : List (List ℕ)) (i neighid partic q j : ℕ)
    (hq : q ∈ ps.getD j []) (hne : q ≠ partic) :
    q ∈ (moveParticle ps i neighid partic).getD j [] := by
  rw [moveParticle, getD_modifyAt, getD_modifyAt]
  by_cases h1 : j = i ∧ i < ps.length
  · rw [if_pos h1]
    have hq1 : q ∈ (ps.getD j []).erase partic := (List.mem_erase_of_ne hne).mpr hq
    by_cases h2 : j = neighid ∧ neighid < ps.length
    · rw [if_pos (by simpa [length_modifyAt] using h2)]
      exact List.mem_append_left _ hq1
    · rw [if_neg (by simpa [length_modifyAt] using h2)]
      exact hq1
  · rw [if_neg h1]
    by_cases h2 : j = neighid ∧ neighid < ps.length
    · rw [if_pos (by simpa [length_modifyAt] using h2)]
      exact List.mem_append_left _ hq
    · rw [if_neg (by simpa [length_modifyAt] using h2)]
      exact hq

theorem move_particles_invariant (autoloop_prob : ℚ) (r : ℕ → ℚ) (i : ℕ)
    (neighids : List ℕ) (probs : List ℚ) (V : ℕ)
    (hi : i < V) (hnb : ∀ d ∈ neighids, d < V) :
    ∀ (todo : List ℕ) (ps : List (List ℕ)) (k : ℕ) (R : List (ℕ × ℕ)),
      ps.length = V →
      (∀ p ∈ todo, p ∈ ps.getD i []) →
      (∀ jq ∈ R, Prod.snd jq ∈ ps.getD jq.1 []) →
      (todo ++ R.map Prod.snd).Nodup →
      ∀ ps' k',
        move_particles autoloop_prob r i neighids probs todo (ps, k) = some (ps', k') →
        mjoin ps' = mjoin ps ∧ ps'.length = V ∧
          ∀ jq ∈ R, Prod.snd jq ∈ ps'.getD jq.1 [] := by
  intro todo
  induction todo with
  | nil =>
    intro ps k R hlen htodo hR hnd ps' k' hrun
    simp only [move_particles, Option.some_inj, Prod.mk.injEq] at hrun
    obtain ⟨h1, _⟩ := hrun
    subst h1
    exact ⟨rfl, hlen, hR⟩
  | cons partic rest ih =>
    intro ps k R hlen htodo hR hnd ps' k' hrun
    have hnd0 : partic ∉ rest ++ R.map Prod.snd ∧ (rest ++ R.map Prod.snd).Nodup :=
      List.nodup_cons.mp hnd
    simp only [move_particles] at hrun
    by_cases h1 : r k ≤ autoloop_prob
    · rw [if_pos h1] at hrun
      exact ih ps (k + 1) R hlen (fun p hp => htodo p (List.mem_cons_of_mem _ hp))
        hR hnd0.2 ps' k' hrun
    · rw [if_neg h1] at hrun
      by_cases h2 : neighids = []
      · rw [if_pos h2] at hrun
        exact ih ps (k + 1) R hlen (fun p hp => htodo p (List.mem_cons_of_mem _ hp))
          hR hnd0.2 ps' k' hrun
      · rw [if_neg h2] at hrun
        cases hfc : fast_random_choice neighids probs (r (k + 1)) with
        | none => rw [hfc] at hrun; exact absurd hrun (by simp)
        | some neighid =>
          rw [hfc] at hrun
          have hdmem : neighid ∈ neighids := List.get?_mem hfc
          have hd : neighid < V := hnb neighid hdmem
          have hp : partic ∈ ps.getD i [] := htodo partic (List.mem_cons_self _ _)
          have hmj : mjoin (moveParticle ps i neighid partic) = mjoin ps :=
            mjoin_moveParticle ps i neighid partic hp (hlen ▸ hi) (hlen ▸ hd)
          have hlen2 : (moveParticle ps i neighid partic).length = V :=
            (length_moveParticle ps i neighid partic).trans hlen
          have htodo2 : ∀ p ∈ rest, p ∈ (moveParticle ps i neighid partic).getD i [] := by
            intro p hpmem
            exact mem_moveParticle_of_ne ps i neighid partic p i
              (htodo p (List.mem_cons_of_mem _ hpmem))
              (fun heq => hnd0.1 (heq ▸ List.mem_append_left _ hpmem))
          have hR2 : ∀ jq ∈ R, Prod.snd jq ∈ (moveParticle ps i neighid partic).getD jq.1 [] := by
            intro jq hjq
            exact mem_moveParticle_of_ne ps i neighid partic jq.2 jq.1 (hR jq hjq)
              (fun hexact => hnd0.1
                (hexact ▸ List.mem_append_right _ (List.mem_map_of_mem Prod.snd hjq)))
          obtain ⟨hmj', hlen', hR'⟩ :=
            ih (moveParticle ps i neighid partic) (k + 2) R hlen2 htodo2 hR2 hnd0.2
              ps' k' hrun
          exact ⟨hmj'.trans hmj, hlen', hR'⟩

/-- The pairs (vertex, particle) still to be processed by the outer mobility
loop: for each remaining vertex id, its snapshot occupants. -/
def pending (snapshot : List (List ℕ)) (W : List ℕ) : List (ℕ × ℕ) :=
  W.flatMap (fun i => (snapshot.getD i []).map (fun p => (i, p)))

theorem pending_cons (snapshot : List (List ℕ)) (i : ℕ) (W : List ℕ) :
    pending snapshot (i :: W) =
      (snapshot.getD i []).map (fun p => (i, p)) ++ pending snapshot W := by
  simp [pending]

theorem pending_map_snd (snapshot : List (List ℕ)) (W : List ℕ) :
    (pending snapshot W).map Prod.snd = W.flatMap (fun i => snapshot.getD i []) := by
  simp [pending, List.map_flatMap, List.map_map]

theorem mem_pending (snapshot : List (List ℕ)) (W : List ℕ) (jq : ℕ × ℕ)
    (h : jq ∈ pending snapshot W) : Prod.snd jq ∈ snapshot.getD jq.1 [] := by
  obtain ⟨i, _, hmap⟩ := List.mem_flatMap.mp h
  obtain ⟨p, hp, hpe⟩ := List.mem_map.mp hmap
  cases hpe
  exact hp

theorem flatMap_getD_range (ps : List (List ℕ)) :
    (List.range ps.length).flatMap (fun i => ps.getD i []) = ps.flatten := by
  induction ps with
  | nil => rfl
  | cons l t ih =>
    rw [show (l :: t).length = t.length + 1 from rfl, List.range_succ_eq_map,
      List.flatMap_cons, List.flatMap_map]
    show l ++ (List.range t.length).flatMap (fun i => t.getD i []) = (l :: t).flatten
    rw [ih]
    rfl

theorem mobility_vertices_invariant (nbrs : ℕ → List ℕ) (gradient : ℕ → ℚ)
    (autoloop_prob : ℚ) (r : ℕ → ℚ) (snapshot : List (List ℕ)) (V : ℕ)
    (hg : ∀ i < V, ∀ d ∈ nbrs i, d < V) :
    ∀ (W : List ℕ) (ps : List (List ℕ)) (k : ℕ),
      ps.length = V →
      (∀ i ∈ W, i < V) →
      (∀ jq ∈ pending snapshot W, Prod.snd jq ∈ ps.getD jq.1 []) →
      ((pending snapshot W).map Prod.snd).Nodup →
      ∀ ps' k',
        mobility_vertices nbrs gradient autoloop_prob r snapshot W (ps, k) =
          some (ps', k') →
        mjoin ps' = mjoin ps ∧ ps'.length = V := by
  intro W
  induction W with
  | nil =>
    intro ps k hlen _ _ _ ps' k' hrun
    simp only [mobility_vertices, Option.some_inj, Prod.mk.injEq] at hrun
    obtain ⟨h1, _⟩ := hrun
    subst h1
    exact ⟨rfl, hlen⟩
  | cons i rest ih =>
    intro ps k hlen hW hmem hnd ps' k' hrun
    have hiV : i < V := hW i (List.mem_cons_self _ _)
    simp only [mobility_vertices] at hrun
    obtain ⟨⟨ps2, k2⟩, hmv, hrest⟩ := Option.bind_eq_some.mp hrun
    have hmapsnd : ((snapshot.getD i []).map (fun p => (i, p))).map Prod.snd =
        snapshot.getD i [] := by
      simp [List.map_map]
    have hnd' : (snapshot.getD i [] ++ (pending snapshot rest).map Prod.snd).Nodup := by
      have := hnd
      rw [pending_cons, List.map_append, hmapsnd] at this
      exact this
    have htodo : ∀ p ∈ snapshot.getD i [], p ∈ ps.getD i [] := by
      intro p hp
      exact hmem (i, p)
        (by rw [pending_cons]
            exact List.mem_append_left _ (List.mem_map_of_mem _ hp))
    have hRmem : ∀ jq ∈ pending snapshot rest, Prod.snd jq ∈ ps.getD jq.1 [] := by
      intro jq hjq
      exact hmem jq (by rw [pending_cons]; exact List.mem_append_right _ hjq)
    obtain ⟨hmj2, hlen2, hR2⟩ :=
      move_particles_invariant autoloop_prob r i (nbrs i)
        (vertex_probs gradient (nbrs i)) V hiV (hg i hiV)
        (snapshot.getD i []) ps k (pending snapshot rest) hlen htodo hRmem hnd'
        ps2 k2 hmv
    have hndrest : ((pending snapshot rest).map Prod.snd).Nodup :=
      hnd'.of_append_right
    obtain ⟨hmj3, hlen3⟩ :=
      ih ps2 k2 hlen2 (fun j hj => hW j (List.mem_cons_of_mem _ hj)) hR2 hndrest
        ps' k' hrest
    exact ⟨hmj3.trans hmj2, hlen3⟩

/-- C4: the mobility step preserves the partition invariant.  If the
occupant lists partition the agent ids {0,...,N-1} and every neighbor id is
a valid vertex, then whatever occupant lists `step_mobility` returns again
partition {0,...,N-1}: their concatenation is a permutation of
`List.range N` (union is all ids, no duplicates), and the vertex count is
unchanged.  Each agent is processed once against the pre-epoch snapshot, so
it moves at most once. -/
theorem step_mobility_partition (nbrs : ℕ → List ℕ) (gradient : ℕ → ℚ)
    (particles : List (List ℕ)) (autoloop_prob : ℚ) (r : ℕ → ℚ) (k : ℕ) (N : ℕ)
    (hg : ∀ i < particles.length, ∀ d ∈ nbrs i, d < particles.length)
    (hpart : List.Perm particles.flatten (List.range N))
    (ps' : List (List ℕ)) (k' : ℕ)
    (hrun : step_mobility nbrs gradient particles autoloop_prob r k = some (ps', k')) :
    List.Perm ps'.flatten (List.range N) ∧ ps'.flatten.Nodup ∧
      ps'.length = particles.length := by
  have hndflat : particles.flatten.Nodup :=
    hpart.nodup_iff.mpr (List.nodup_range N)
  have hndpend : ((pending particles (List.range particles.length)).map Prod.snd).Nodup := by
    rw [pending_map_snd, flatMap_getD_range]
    exact hndflat
  obtain ⟨hmj, hlen⟩ :=
    mobility_vertices_invariant nbrs gradient autoloop_prob r particles
      particles.length hg (List.range particles.length) particles k rfl
      (fun i hi => List.mem_range.mp hi)
      (fun jq hjq => mem_pending particles _ jq hjq)
      hndpend ps' k' hrun
  have hperm : List.Perm ps'.flatten particles.flatten := by
    rw [← Multiset.coe_eq_coe, ← mjoin_eq_coe_flatten, ← mjoin_eq_coe_flatten]
    exact hmj
  exact ⟨hperm.trans hpart, hperm.nodup_iff.mpr hndflat, hlen⟩

/-- Witness for C4: on the 2-vertex graph 0 – 1 with constant gradient and
occupants `[[0], [1]]` (a partition of {0, 1}), a concrete run of the
mobility step in which both agents move returns `[[1], [0]]`, which again
partitions {0, 1}. -/
theorem step_mobility_partition_witness :
    List.Perm ([[1], [0]] : List (List ℕ)).flatten (List.range 2) ∧
      ([[1], [0]] : List (List ℕ)).flatten.Nodup ∧
      ([[1], [0]] : List (List ℕ)).length = ([[0], [1]] : List (List ℕ)).length := by
  refine step_mobility_partition (fun i => if i = 0 then [1] else [0]) (fun _ => 1)
    [[0], [1]] (1/2) (fun _ => 3/4) 0 2 ?_ ?_ [[1], [0]] 4 ?_
  · intro i hi d hd
    show d < 2
    by_cases h : i = 0 <;> simp [h] at hd <;> omega
  · decide
  · norm_num [step_mobility, mobility_vertices, move_particles, moveParticle,
      modifyAt, vertex_probs, fast_random_choice, searchsorted, cumsum, psum,
      List.range_succ, List.countP_cons]

theorem psum_succ (l : List ℚ) (j : ℕ) (hj : j < l.length) :
    psum l (j + 1) = psum l j + l.getD j 0 := by
  rw [psum, psum, List.take_succ, List.sum_append]
  congr 1
  rw [List.getD_eq_getElem?_getD, List.getElem?_eq_getElem hj]
  simp

theorem psum_le_psum_succ (l : List ℚ) (hnn : ∀ p ∈ l, 0 ≤ p) (j : ℕ) :
    psum l j ≤ psum l (j + 1) := by
  by_cases hj : j < l.length
  · rw [psum_succ l j hj]
    have : 0 ≤ l.getD j 0 := by
      rw [List.getD_eq_getElem?_getD, List.getElem?_eq_getElem hj]
      exact hnn _ (l.getElem_mem hj)
    linarith
  · rw [psum, psum, List.take_of_length_le (le_of_not_lt hj),
      List.take_of_length_le (by omega)]

theorem psum_mono (l : List ℚ) (hnn : ∀ p ∈ l, 0 ≤ p) {j j' : ℕ} (h : j ≤ j') :
    psum l j ≤ psum l j' := by
  induction j' with
  | zero =>
    have h0 : j = 0 := by omega
    subst h0; exact le_refl _
  | succ m ih =>
    by_cases h1 : j ≤ m
    · exact le_trans (ih h1) (psum_le_psum_succ l hnn m)
    · have h2 : j = m + 1 := by omega
      subst h2; exact le_refl _

theorem countP_range_downward (P : ℕ → Prop) [DecidablePred P]
    (hdc : ∀ j j' : ℕ, j ≤ j' → P j' → P j) (n : ℕ) :
    ∀ j < n, (P j ↔ j < (List.range n).countP (fun j => decide (P j))) := by
  induction n with
  | zero => intro j hj; omega
  | succ m ih =>
    intro j hj
    by_cases hPm : P m
    · have hall : (List.range m).countP (fun j => decide (P j)) = (List.range m).length :=
        List.countP_eq_length.mpr
          (fun a ha => decide_eq_true (hdc a m (le_of_lt (List.mem_range.mp ha)) hPm))
      have hcnt : (List.range (m + 1)).countP (fun j => decide (P j)) = m + 1 := by
        rw [List.range_succ, List.countP_append, hall, List.length_range]
        simp [hPm]
      rw [hcnt]
      exact ⟨fun _ => by omega, fun _ => hdc j m (by omega) hPm⟩
    · have hcnt : (List.range (m + 1)).countP (fun j => decide (P j)) =
          (List.range m).countP (fun j => decide (P j)) := by
        rw [List.range_succ, List.countP_append]
        simp [hPm]
      rw [hcnt]
      by_cases hjm : j < m
      · exact ih j hjm
      · have hj' : j = m := by omega
        subst hj'
        have hle : (List.range j).countP (fun j => decide (P j)) ≤ j := by
          simpa using List.countP_le_length (p := fun j => decide (P j)) (l := List.range j)
        exact ⟨fun hP => absurd hP hPm, fun h => absurd h (by omega)⟩

theorem countP_range_eq_iff (P : ℕ → Prop) [DecidablePred P]
    (hdc : ∀ j j' : ℕ, j ≤ j' → P j' → P j) (n k : ℕ) (hk : k < n) :
    ((List.range n).countP (fun j => decide (P j)) = k) ↔
      (¬ P k ∧ ∀ j < k, P j) := by
  have hiff := countP_range_downward P hdc n
  set c := (List.range n).countP (fun j => decide (P j)) with hc
  constructor
  · intro h
    refine ⟨fun hPk => ?_, fun j hj => ?_⟩
    · have := (hiff k hk).mp hPk
      omega
    · exact (hiff j (by omega)).mpr (by omega)
  · rintro ⟨hnk, hall⟩
    by_contra hne
    rcases Nat.lt_or_ge c k with h1 | h1
    · have hPc : P c := hall c h1
      have := (hiff c (by omega)).mp hPc
      omega
    · have h2 : k < c := by omega
      exact hnk ((hiff k hk).mpr h2)

theorem searchsorted_cumsum (probs : List ℚ) (u : ℚ) :
    searchsorted (cumsum probs) u =
      (List.range probs.length).countP (fun j => decide (psum probs (j + 1) < u)) := by
  rw [searchsorted, cumsum, List.countP_map]
  rfl

theorem psum_succ_downward (probs : List ℚ) (hnn : ∀ p ∈ probs, 0 ≤ p) (u : ℚ) :
    ∀ j j' : ℕ, j ≤ j' → psum probs (j' + 1) < u → psum probs (j + 1) < u :=
  fun j j' h hlt =>
    lt_of_le_of_lt (psum_mono probs hnn (by omega)) hlt

theorem searchsorted_cumsum_eq_iff (probs : List ℚ)
    (hnn : ∀ p ∈ probs, 0 ≤ p) (u : ℚ) (k : ℕ) (hk : k < probs.length) :
    searchsorted (cumsum probs) u = k ↔
      u ≤ psum probs (k + 1) ∧ (k = 0 ∨ psum probs k < u) := by
  rw [searchsorted_cumsum,
    countP_range_eq_iff (fun j => psum probs (j + 1) < u)
      (psum_succ_downward probs hnn u) probs.length k hk]
  rw [not_lt]
  constructor
  · rintro ⟨h1, h2⟩
    refine ⟨h1, ?_⟩
    rcases Nat.eq_zero_or_pos k with h0 | h0
    · exact Or.inl h0
    · right
      have := h2 (k - 1) (by omega)
      have hk1 : k - 1 + 1 = k := by omega
      rwa [hk1] at this
  · rintro ⟨h1, h2⟩
    refine ⟨h1, fun j hj => ?_⟩
    rcases h2 with h0 | h0
    · omega
    · exact lt_of_le_of_lt (psum_mono probs hnn (by omega)) h0

theorem categorical_idx_eq_iff (probs : List ℚ)
    (hnn : ∀ p ∈ probs, 0 ≤ p) (u : ℚ) (hu0 : 0 ≤ u) (k : ℕ)
    (hk : k < probs.length) :
    categorical_idx probs u = k ↔
      psum probs k ≤ u ∧ u < psum probs (k + 1) := by
  rw [categorical_idx,
    countP_range_eq_iff (fun j => psum probs (j + 1) ≤ u)
      (fun j j' h hle => le_trans (psum_mono probs hnn (by omega)) hle)
      probs.length k hk]
  rw [not_le]
  constructor
  · rintro ⟨h1, h2⟩
    refine ⟨?_, h1⟩
    rcases Nat.eq_zero_or_pos k with h0 | h0
    · rw [h0]; exact hu0
    · have := h2 (k - 1) (by omega)
      have hk1 : k - 1 + 1 = k := by omega
      rwa [hk1] at this
  · rintro ⟨h1, h2⟩
    exact ⟨h2, fun j hj => le_trans (psum_mono probs hnn (by omega)) h1⟩

theorem psum_length (probs : List ℚ) : psum probs probs.length = probs.sum := by
  rw [psum, List.take_length]

theorem searchsorted_cumsum_lt_length (probs : List ℚ) (hsum : probs.sum = 1)
    (u : ℚ) (hu : u < 1) (hne : probs ≠ []) :
    searchsorted (cumsum probs) u < probs.length := by
  have hn : 0 < probs.length := List.length_pos.mpr hne
  rw [searchsorted_cumsum]
  have hle : (List.range probs.length).countP
      (fun j => decide (psum probs (j + 1) < u)) ≤ probs.length := by
    simpa using List.countP_le_length
      (p := fun j => decide (psum probs (j + 1) < u)) (l := List.range probs.length)
  rcases lt_or_eq_of_le hle with h | h
  · exact h
  · exfalso
    have hall := List.countP_eq_length.mp (by rw [h]; simp)
    have hlast := hall (probs.length - 1) (List.mem_range.mpr (by omega))
    rw [decide_eq_true_eq] at hlast
    have hfix : probs.length - 1 + 1 = probs.length := by omega
    rw [hfix, psum_length, hsum] at hlast
    linarith

theorem psum_getD (probs : List ℚ) (k : ℕ) (hk : k < probs.length) :
    psum probs (k + 1) - psum probs k = probs.getD k 0 := by
  rw [psum_succ probs k hk]
  ring

/-- C10: `fast_random_choice(lst, probs)` is a categorical sampler for
`probs` and agrees in distribution with `np.random.choice(lst, p=probs)`.
For every index `k`, `fast_random_choice` returns the element at `k`
exactly when the uniform draw `u` lies in the interval
`(psum k, psum (k+1)]` (with the left end closed for `k = 0`), and the
inverse-CDF categorical sampler selects `k` exactly on `[psum k, psum (k+1))`;
both intervals have the same length `probs[k]`, so under a uniform [0,1)
draw each selects `lst[k]` with probability `probs[k]`.  The choice is
always defined (`isSome`, no IndexError) because the cumulative sums reach
the total 1 and `u < 1`. -/
theorem fast_random_choice_categorical (lst : List ℕ) (probs : List ℚ)
    (hlen : probs.length = lst.length) (hnn : ∀ p ∈ probs, 0 ≤ p)
    (hsum : probs.sum = 1) (u : ℚ) (hu0 : 0 ≤ u) (hu1 : u < 1)
    (k : ℕ) (hk : k < probs.length) :
    (searchsorted (cumsum probs) u = k ↔
      u ≤ psum probs (k + 1) ∧ (k = 0 ∨ psum probs k < u)) ∧
    (categorical_idx probs u = k ↔
      psum probs k ≤ u ∧ u < psum probs (k + 1)) ∧
    psum probs (k + 1) - psum probs k = probs.getD k 0 ∧
    (fast_random_choice lst probs u).isSome = true := by
  refine ⟨searchsorted_cumsum_eq_iff probs hnn u k hk,
    categorical_idx_eq_iff probs hnn u hu0 k hk,
    psum_getD probs k hk, ?_⟩
  have hne : probs ≠ [] := by
    intro h0
    rw [h0] at hk
    simp at hk
  have hlt : searchsorted (cumsum probs) u < lst.length :=
    hlen ▸ searchsorted_cumsum_lt_length probs hsum u hu1 hne
  rw [fast_random_choice, List.get?_eq_get hlt]
  rfl

/-- Witness for C10: a concrete two-outcome distribution, draw 1/2 and
index 1. -/
theorem fast_random_choice_categorical_witness :
    (searchsorted (cumsum [1/3, 2/3]) (1/2) = 1 ↔
      (1/2 : ℚ) ≤ psum [1/3, 2/3] 2 ∧ (1 = 0 ∨ psum [1/3, 2/3] 1 < 1/2)) ∧
    (categorical_idx [1/3, 2/3] (1/2) = 1 ↔
      psum [1/3, 2/3] 1 ≤ 1/2 ∧ (1/2 : ℚ) < psum [1/3, 2/3] 2) ∧
    psum [1/3, 2/3] 2 - psum [1/3, 2/3] 1 = ([1/3, 2/3] : List ℚ).getD 1 0 ∧
    (fast_random_choice [5, 7] [1/3, 2/3] (1/2)).isSome = true := by
  refine fast_random_choice_categorical [5, 7] [1/3, 2/3] rfl ?_ ?_ (1/2)
    (by norm_num) (by norm_num) 1 (by norm_num)
  · intro p hp
    rcases List.mem_cons.mp hp with h | h
    · rw [h]; norm_num
    · rcases List.mem_cons.mp h with h' | h'
      · rw [h']; norm_num
      · simp at h'
  · norm_num

theorem vertex_probs_length (gradient : ℕ → ℚ) (neighids : List ℕ) :
    (vertex_probs gradient neighids).length = neighids.length := by
  rw [vertex_probs]
  split <;> simp

theorem vertex_probs_nonneg (gradient : ℕ → ℚ) (neighids : List ℕ)
    (hgrad : ∀ d, 0 ≤ gradient d) :
    ∀ p ∈ vertex_probs gradient neighids, 0 ≤ p := by
  intro p hp
  rw [vertex_probs] at hp
  split at hp
  · rw [List.eq_of_mem_replicate hp]
    positivity
  · obtain ⟨x, hx, hxe⟩ := List.mem_map.mp hp
    obtain ⟨d, _, hde⟩ := List.mem_map.mp hx
    have hsum : 0 ≤ (neighids.map gradient).sum :=
      List.sum_nonneg (fun q hq => by
        obtain ⟨e, _, hee⟩ := List.mem_map.mp hq
        exact hee ▸ hgrad e)
    rw [← hxe]
    exact div_nonneg (hde ▸ hgrad d) hsum

theorem vertex_probs_sum (gradient : ℕ → ℚ) (neighids : List ℕ)
    (hgrad : ∀ d, 0 ≤ gradient d) (hne : neighids ≠ []) :
    (vertex_probs gradient neighids).sum = 1 := by
  have hn : 0 < neighids.length := List.length_pos.mpr hne
  rw [vertex_probs]
  split
  · rw [List.sum_replicate, nsmul_eq_mul, mul_one_div_cancel (by exact_mod_cast hn.ne')]
  · rename_i hs
    have hmap : (neighids.map gradient).map (fun x => x / (neighids.map gradient).sum) =
        neighids.map (fun d => gradient d * ((neighids.map gradient).sum)⁻¹) := by
      rw [List.map_map]
      simp [div_eq_mul_inv, Function.comp]
    rw [hmap, List.sum_map_mul_right]
    exact mul_inv_cancel₀ hs

theorem fast_random_choice_total (lst : List ℕ) (probs : List ℚ)
    (hlen : probs.length = lst.length) (hsum : probs.sum = 1)
    (u : ℚ) (hu1 : u < 1) (hne : probs ≠ []) :
    ∃ d, fast_random_choice lst probs u = some d ∧ d ∈ lst := by
  have hlt : searchsorted (cumsum probs) u < lst.length :=
    hlen ▸ searchsorted_cumsum_lt_length probs hsum u hu1 hne
  refine ⟨lst.get ⟨searchsorted (cumsum probs) u, hlt⟩, ?_, List.get_mem lst _ hlt⟩
  rw [fast_random_choice, List.get?_eq_get hlt]

theorem move_particles_total (autoloop_prob : ℚ) (r : ℕ → ℚ) (i : ℕ)
    (neighids : List ℕ) (gradient : ℕ → ℚ)
    (hgrad : ∀ d, 0 ≤ gradient d) (hr : ∀ m, 0 ≤ r m ∧ r m < 1) :
    ∀ (todo : List ℕ) (ps : List (List ℕ)) (k : ℕ),
      ∃ st', move_particles autoloop_prob r i neighids
        (vertex_probs gradient neighids) todo (ps, k) = some st' := by
  intro todo
  induction todo with
  | nil => intro ps k; exact ⟨(ps, k), rfl⟩
  | cons partic rest ih =>
    intro ps k
    simp only [move_particles]
    by_cases h1 : r k ≤ autoloop_prob
    · rw [if_pos h1]; exact ih ps (k + 1)
    · rw [if_neg h1]
      by_cases h2 : neighids = []
      · rw [if_pos h2]; exact ih ps (k + 1)
      · rw [if_neg h2]
        obtain ⟨d, hd, _⟩ := fast_random_choice_total neighids
          (vertex_probs gradient neighids) (vertex_probs_length gradient neighids)
          (vertex_probs_sum gradient neighids hgrad h2) (r (k + 1)) (hr (k + 1)).2
          (by
            intro h0
            exact h2 (by
              have := vertex_probs_length gradient neighids
              rw [h0] at this
              exact List.length_eq_zero.mp this.symm))
        rw [hd]
        exact ih (moveParticle ps i d partic) (k + 2)

theorem mobility_vertices_total (nbrs : ℕ → List ℕ) (gradient : ℕ → ℚ)
    (autoloop_prob : ℚ) (r : ℕ → ℚ) (snapshot : List (List ℕ))
    (hgrad : ∀ d, 0 ≤ gradient d) (hr : ∀ m, 0 ≤ r m ∧ r m < 1) :
    ∀ (W : List ℕ) (ps : List (List ℕ)) (k : ℕ),
      ∃ st', mobility_vertices nbrs gradient autoloop_prob r snapshot W (ps, k) =
        some st' := by
  intro W
  induction W with
  | nil => intro ps k; exact ⟨(ps, k), rfl⟩
  | cons i rest ih =>
    intro ps k
    obtain ⟨⟨ps2, k2⟩, h2⟩ := move_particles_total autoloop_prob r i (nbrs i)
      gradient hgrad hr (snapshot.getD i []) ps k
    obtain ⟨st', h3⟩ := ih ps2 k2
    exact ⟨st', by simp only [mobility_vertices, h2, Option.bind_some]; exact h3⟩

theorem psum_replicate (n : ℕ) (c : ℚ) (j : ℕ) (hj : j ≤ n) :
    psum (List.replicate n c) j = (j : ℚ) * c := by
  rw [psum, List.take_replicate, min_eq_left hj, List.sum_replicate, nsmul_eq_mul]

/-- C8: mobility's degenerate cases.  (1) If all neighbors of vertex `i`
have zero gradient, the selection probabilities fall back to the uniform
vector `np.ones(n)/n`, and the destination index equals `j` exactly when
the uniform draw lies in an interval of length `1/n`
(`(j/n, (j+1)/n]`, left-closed for `j = 0`) — i.e. each of the `n`
neighbors is chosen with probability `1/n`.  (2) With draws in [0,1) and
non-negative gradients the whole mobility step always returns a value: the
all-zero case and the zero-neighbor case (whose occupants just stay) are
handled locally and never raise an error. -/
theorem step_mobility_uniform_fallback (nbrs : ℕ → List ℕ)
    (gradient : ℕ → ℚ) (particles : List (List ℕ)) (autoloop_prob : ℚ)
    (r : ℕ → ℚ) (k0 : ℕ) (i : ℕ) (u : ℚ)
    (hgrad : ∀ d, 0 ≤ gradient d) (hr : ∀ m, 0 ≤ r m ∧ r m < 1)
    (hu0 : 0 ≤ u) (hu1 : u < 1) :
    ((∀ d ∈ nbrs i, gradient d = 0) →
      vertex_probs gradient (nbrs i) =
        List.replicate (nbrs i).length (1 / ((nbrs i).length : ℚ)) ∧
      ∀ j < (nbrs i).length,
        (searchsorted (cumsum (vertex_probs gradient (nbrs i))) u = j ↔
          u ≤ ((j : ℚ) + 1) / ((nbrs i).length : ℚ) ∧
            (j = 0 ∨ (j : ℚ) / ((nbrs i).length : ℚ) < u))) ∧
    ∃ st', step_mobility nbrs gradient particles autoloop_prob r k0 = some st' := by
  constructor
  · intro hzero
    have hzsum : ((nbrs i).map gradient).sum = 0 :=
      List.sum_eq_zero (fun q hq => by
        obtain ⟨d, hd, he⟩ := List.mem_map.mp hq
        exact he ▸ hzero d hd)
    have hprobs : vertex_probs gradient (nbrs i) =
        List.replicate (nbrs i).length (1 / ((nbrs i).length : ℚ)) := by
      rw [vertex_probs]
      simp [hzsum]
    refine ⟨hprobs, fun j hj => ?_⟩
    have hnn : ∀ p ∈ vertex_probs gradient (nbrs i), 0 ≤ p :=
      vertex_probs_nonneg gradient (nbrs i) hgrad
    have hlen := vertex_probs_length gradient (nbrs i)
    rw [searchsorted_cumsum_eq_iff (vertex_probs gradient (nbrs i)) hnn u j
      (by omega)]
    rw [hprobs, psum_replicate _ _ (j + 1) (by omega), psum_replicate _ _ j (by omega)]
    have hcast : ((j : ℚ) + 1) = ((j + 1 : ℕ) : ℚ) := by push_cast; ring
    rw [mul_one_div, mul_one_div, hcast]
  · obtain ⟨st', h⟩ := mobility_vertices_total nbrs gradient autoloop_prob r
      particles hgrad hr (List.range particles.length) particles k0
    exact ⟨st', h⟩

/-- Witness for C8: a 3-vertex graph in which vertex 0 has two zero-gradient
neighbors (uniform fallback with n = 2) and vertex 1 has no neighbors; the
step is total on it. -/
theorem step_mobility_uniform_fallback_witness :
    ((∀ d ∈ [1, 2], (fun _ : ℕ => (0 : ℚ)) d = 0) →
      vertex_probs (fun _ : ℕ => (0 : ℚ)) [1, 2] =
        List.replicate 2 (1 / (2 : ℚ)) ∧
      ∀ j < ([1, 2] : List ℕ).length,
        (searchsorted (cumsum (vertex_probs (fun _ : ℕ => (0 : ℚ)) [1, 2])) (2/3) = j ↔
          (2/3 : ℚ) ≤ ((j : ℚ) + 1) / ((2 : ℕ) : ℚ) ∧
            (j = 0 ∨ (j : ℚ) / ((2 : ℕ) : ℚ) < 2/3))) ∧
    ∃ st', step_mobility (fun i => if i = 0 then [1, 2] else if i = 1 then [] else [0])
      (fun _ => 0) [[0], [1], [2]] (1/2) (fun _ => 2/3) 0 = some st' := by
  have h := step_mobility_uniform_fallback
    (fun i => if i = 0 then [1, 2] else if i = 1 then [] else [0])
    (fun _ => 0) [[0], [1], [2]] (1/2) (fun _ => 2/3) 0 0 (2/3)
    (fun _ => le_refl 0) (fun _ => by norm_num) (by norm_num) (by norm_num)
  simpa using h

/-- `MAXITERS = 100000` (simu.py line 36): the allocated length of the
per-epoch series arrays `statuscountsum` and `nparticlesstds`. -/
def MAXITERS : ℕ := 100000

/-- `MAX = sys.maxsize` (simu.py line 35) on a 64-bit platform; used as the
epoch budget when `nepochs` is the run-until-no-infected sentinel. -/
def MAX : ℕ := 2 ^ 63 - 1

/-- `np.sum(status == INFECTED)` (simu.py line 315). -/
def countI (status : List ℕ) : ℕ := status.countP (fun s => s == INFECTED)

/-- The mutable state threaded through the epoch loop of `run_experiment`:
occupant lists, status array, accumulated per-vertex transmission counters,
and the random-stream cursor. -/
structure SimState where
  particles : List (List ℕ)
  status : List ℕ
  ntransmissions : List ℕ
  k : ℕ

/-- The epoch loop `for ep in range(maxepoch)` of `run_experiment`
(simu.py lines 303-315), by recursion on the remaining budget `fuel`:
each iteration runs `step_mobility`, then writes `nparticlesstds[ep]`
(an array of length MAXITERS — an epoch index beyond it raises IndexError,
modelled by the bounds check), then `step_transmission`, accumulates the
transmission counters, writes `statuscountsum[ep]` (same bound), and breaks
when `nepochs == -1` and no infected agent remains. -/
def sim_go (nbrs : ℕ → List ℕ) (gradient : ℕ → ℚ)
    (autoloop_prob beta gamma : ℚ) (nepochs : ℤ) (r : ℕ → ℚ) :
    ℕ → ℕ → SimState → Except String (ℕ × SimState)
  | 0, ep, st => .ok (ep, st)
  | fuel + 1, ep, st =>
    match step_mobility nbrs gradient st.particles autoloop_prob r st.k with
    | none => .error "IndexError: fast_random_choice"
    | some (ps', k1) =>
      if ep < MAXITERS then
        let res := step_transmission st.status beta gamma ps' r k1
        let st' : SimState :=
          { particles := ps', status := res.1,
            ntransmissions := st.ntransmissions.zipWith (· + ·) res.2.1,
            k := res.2.2 }
        if nepochs = -1 ∧ countI res.1 = 0 then .ok (ep, st')
        else sim_go nbrs gradient autoloop_prob beta gamma nepochs r fuel (ep + 1) st'
      else .error "IndexError: nparticlesstds"

/-- `maxepoch = nepochs if nepochs > 0 else MAX` (simu.py line 301) followed
by the epoch loop. -/
def sim_loop (nbrs : ℕ → List ℕ) (gradient : ℕ → ℚ)
    (autoloop_prob beta gamma : ℚ) (nepochs : ℤ) (r : ℕ → ℚ)
    (st0 : SimState) : Except String (ℕ × SimState) :=
  sim_go nbrs gradient autoloop_prob beta gamma nepochs r
    (if 0 < nepochs then nepochs.toNat else MAX) 0 st0

theorem transmission_vertex_fst (snap : List ℕ) (beta gamma : ℚ)
    (particles : List (List ℕ)) (r : ℕ → ℚ) (acc : List ℕ × List ℕ × ℕ) (i : ℕ) :
    ∃ c1 c2 : ℕ,
      (transmission_vertex snap beta gamma particles r acc i).1 =
        setAll (((List.range snap.length).filter
            (fun j => snap.getD j 0 == INFECTED)).take c2) RECOVERED
          (setAll (((List.range snap.length).filter
              (fun j => snap.getD j 0 == SUSCEPTIBLE)).take c1) INFECTED acc.1) ∧
      (gamma = 0 → (∀ m, 0 < r m) → c2 = 0) := by
  refine ⟨_, _, rfl, ?_⟩
  intro hg hr
  subst hg
  have hcnt : (((List.range
      (((particles.getD i []).map (fun p => snap.getD p 0)).countP
        (fun s => s == INFECTED))).map
        (fun t => r ((acc.2.2 : ℕ) +
          ((particles.getD i []).map (fun p => snap.getD p 0)).countP
            (fun s => s == SUSCEPTIBLE) *
          ((particles.getD i []).map (fun p => snap.getD p 0)).countP
            (fun s => s == INFECTED) + t))).countP
        (fun u => decide (u ≤ (0 : ℚ)))) = 0 := by
    refine List.countP_eq_zero.mpr (fun u hu => ?_)
    obtain ⟨t, _, hte⟩ := List.mem_map.mp hu
    have := hr ((acc.2.2 : ℕ) +
      ((particles.getD i []).map (fun p => snap.getD p 0)).countP
        (fun s => s == SUSCEPTIBLE) *
      ((particles.getD i []).map (fun p => snap.getD p 0)).countP
        (fun s => s == INFECTED) + t)
    rw [← hte]
    simpa using this
  rw [hcnt]
  exact Nat.zero_min _

theorem setAll_nil (v : ℕ) (l : List ℕ) : setAll [] v l = l := rfl

theorem transmission_vertex_keeps_infected (snap : List ℕ) (beta : ℚ)
    (particles : List (List ℕ)) (r : ℕ → ℚ) (acc : List ℕ × List ℕ × ℕ) (i j : ℕ)
    (hr : ∀ m, 0 < r m) (hcur : acc.1.getD j 0 = INFECTED) :
    (transmission_vertex snap beta 0 particles r acc i).1.getD j 0 = INFECTED := by
  obtain ⟨c1, c2, heq, hc2⟩ := transmission_vertex_fst snap beta 0 particles r acc i
  rw [heq, hc2 rfl hr]
  rw [show (((List.range snap.length).filter
      (fun j => snap.getD j 0 == INFECTED)).take 0) = [] from rfl, setAll_nil]
  rw [getD_setAll]
  split
  · rfl
  · exact hcur

theorem foldl_transmission_keeps_infected (snap : List ℕ) (beta : ℚ)
    (particles : List (List ℕ)) (r : ℕ → ℚ) (j : ℕ) (hr : ∀ m, 0 < r m) :
    ∀ (L : List ℕ) (acc : List ℕ × List ℕ × ℕ),
      acc.1.getD j 0 = INFECTED →
      (L.foldl (transmission_vertex snap beta 0 particles r) acc).1.getD j 0 =
        INFECTED := by
  intro L
  induction L with
  | nil => intro acc h; exact h
  | cons i rest ih =>
    intro acc h
    exact ih _ (transmission_vertex_keeps_infected snap beta particles r acc i j hr h)

theorem step_transmission_keeps_infected (status : List ℕ) (beta : ℚ)
    (particles : List (List ℕ)) (r : ℕ → ℚ) (k j : ℕ)
    (hr : ∀ m, 0 < r m) (hj : status.getD j 0 = INFECTED) :
    (step_transmission status beta 0 particles r k).1.getD j 0 = INFECTED :=
  foldl_transmission_keeps_infected status beta particles r j hr _ _ hj

theorem countI_ne_zero (status : List ℕ) (j : ℕ)
    (hj : status.getD j 0 = INFECTED) : countI status ≠ 0 := by
  intro h0
  have hlt : j < status.length := by
    by_contra hge
    rw [List.getD_eq_getElem?_getD, List.getElem?_eq_none (by omega)] at hj
    exact absurd hj (by decide)
  have hmem : status.getD j 0 ∈ status := by
    rw [List.getD_eq_getElem?_getD, List.getElem?_eq_getElem hlt]
    exact List.getElem_mem hlt
  have := List.countP_eq_zero.mp h0 _ hmem
  rw [hj] at this
  simp at this

theorem sim_go_hits_ceiling (nbrs : ℕ → List ℕ) (gradient : ℕ → ℚ)
    (autoloop_prob beta : ℚ) (r : ℕ → ℚ)
    (hgrad : ∀ d, 0 ≤ gradient d) (hr : ∀ m, 0 < r m ∧ r m < 1) :
    ∀ (d fuel ep : ℕ) (st : SimState) (j : ℕ),
      ep + d = MAXITERS → d < fuel → st.status.getD j 0 = INFECTED →
      sim_go nbrs gradient autoloop_prob beta 0 (-1) r fuel ep st =
        .error "IndexError: nparticlesstds" := by
  intro d
  induction d with
  | zero =>
    intro fuel ep st j hd hfuel hinf
    obtain ⟨f, rfl⟩ : ∃ f, fuel = f + 1 := ⟨fuel - 1, by omega⟩
    obtain ⟨⟨ps', k1⟩, hmob⟩ := mobility_vertices_total nbrs gradient autoloop_prob r
      st.particles hgrad (fun m => ⟨(hr m).1.le, (hr m).2⟩)
      (List.range st.particles.length) st.particles st.k
    simp only [sim_go, step_mobility, hmob]
    rw [if_neg (by omega)]
  | succ d ih =>
    intro fuel ep st j hd hfuel hinf
    obtain ⟨f, rfl⟩ : ∃ f, fuel = f + 1 := ⟨fuel - 1, by omega⟩
    obtain ⟨⟨ps', k1⟩, hmob⟩ := mobility_vertices_total nbrs gradient autoloop_prob r
      st.particles hgrad (fun m => ⟨(hr m).1.le, (hr m).2⟩)
      (List.range st.particles.length) st.particles st.k
    simp only [sim_go, step_mobility, hmob]
    rw [if_pos (by omega)]
    have hkeep : (step_transmission st.status beta 0 ps' r k1).1.getD j 0 = INFECTED :=
      step_transmission_keeps_infected st.status beta ps' r k1 j
        (fun m => (hr m).1) hinf
    rw [if_neg (by
      rintro ⟨-, hcnt⟩
      exact countI_ne_zero _ j hkeep hcnt)]
    exact ih f (ep + 1) _ j (by omega) (by omega) hkeep

/-- C3: REFUTED as to graceful truncation.  With the run-until-no-infected
sentinel (`nepochs = -1`) the loop budget is `sys.maxsize`, not the
`MAXITERS = 100000` the series arrays are allocated with, so if the
infection never dies out (here: γ = 0, at least one infected agent, and
strictly positive draws, so no agent ever recovers), the loop does not stop
normally at the safety ceiling: at epoch 100000 the write
`nparticlesstds[ep]` raises IndexError and no truncated series is emitted.
The break at the first epoch with no infected agents does exist (simu.py
line 315), but the ceiling path fails instead of stopping. -/
theorem run_until_no_infected_hits_index_error (nbrs : ℕ → List ℕ)
    (gradient : ℕ → ℚ) (autoloop_prob beta : ℚ) (r : ℕ → ℚ) (st0 : SimState)
    (j : ℕ) (hgrad : ∀ d, 0 ≤ gradient d) (hr : ∀ m, 0 < r m ∧ r m < 1)
    (hinf : st0.status.getD j 0 = INFECTED) :
    sim_loop nbrs gradient autoloop_prob beta 0 (-1) r st0 =
      .error "IndexError: nparticlesstds" := by
  rw [sim_loop, if_neg (by norm_num)]
  exact sim_go_hits_ceiling nbrs gradient autoloop_prob beta r hgrad hr
    MAXITERS MAX 0 st0 j (by omega) (by norm_num [MAXITERS, MAX]) hinf

/-- Witness for C3: a single isolated vertex holding one infected agent,
constant draws 1/2, γ = 0: the sentinel run crashes with IndexError at the
array bound instead of stopping at a safety ceiling. -/
theorem run_until_no_infected_hits_index_error_witness :
    sim_loop (fun _ => []) (fun _ => 0) (1/2) (1/2) 0 (-1) (fun _ => 1/2)
      ⟨[[0]], [1], [0], 0⟩ = .error "IndexError: nparticlesstds" :=
  run_until_no_infected_hits_index_error (fun _ => []) (fun _ => 0) (1/2) (1/2)
    (fun _ => 1/2) ⟨[[0]], [1], [0], 0⟩ 0 (fun _ => le_refl 0)
    (fun _ => by norm_num) rfl

/-- `multivariate_normal(x, d, mean, cov)` (simu.py lines 387-391): the pdf
of the multivariate normal,
`1/sqrt((2π)^d · det cov) · exp(−(solve(cov, x−mean) · (x−mean))/2)`,
for the 2-dimensional case used by the gradient initializer
(`np.linalg.solve(cov, y) = cov⁻¹ y`). -/
noncomputable def multivariate_normal (x : Fin 2 → ℝ) (d : ℕ) (mean : Fin 2 → ℝ)
    (cov : Matrix (Fin 2) (Fin 2) ℝ) : ℝ :=
  1 / Real.sqrt ((2 * Real.pi) ^ d * cov.det) *
    Real.exp (-(Matrix.dotProduct (cov⁻¹.mulVec (x - mean)) (x - mean)) / 2)

/-- `np.max` of a list of reals (numpy rejects an empty input; the 0 default
is outside the source's domain). -/
noncomputable def listMax : List ℝ → ℝ
  | [] => 0
  | x :: xs => xs.foldl max x

/-- `np.min` of a list of reals. -/
noncomputable def listMin : List ℝ → ℝ
  | [] => 0
  | x :: xs => xs.foldl min x

/-- `mu = (np.max(coords, 0) + np.min(coords, 0)) / 2` (simu.py line 465):
the per-axis midpoint of the embedding's bounding box. -/
noncomputable def bbox_mid (coords : List (Fin 2 → ℝ)) : Fin 2 → ℝ :=
  fun a => (listMax (coords.map (fun c => c a)) + listMin (coords.map (fun c => c a))) / 2

/-- `initialize_gradients` (simu.py lines 448-467) composed with
`initialize_gradients_gaussian` (lines 432-445): every vertex's gradient is
the multivariate normal density at its coordinate with mean `bbox_mid`
and covariance `np.eye(2) * sigma` — the configured spread multiplies the
identity directly. -/
noncomputable def initialize_gradients (coords : List (Fin 2 → ℝ)) (sigma : ℝ) :
    List ℝ :=
  coords.map (fun x =>
    multivariate_normal x 2 (bbox_mid coords)
      (sigma • (1 : Matrix (Fin 2) (Fin 2) ℝ)))

/-- The field as claim C6 reads it: identical construction but with
isotropic covariance σ²·I, treating the configured `gaussianStd` as a
standard deviation.  Kept only to compare against the source's
`initialize_gradients`. -/
noncomputable def initialize_gradients_claimed (coords : List (Fin 2 → ℝ))
    (sigma : ℝ) : List ℝ :=
  coords.map (fun x =>
    multivariate_normal x 2 (bbox_mid coords)
      ((sigma ^ 2) • (1 : Matrix (Fin 2) (Fin 2) ℝ)))

theorem multivariate_normal_smul_one (x mean : Fin 2 → ℝ) (c : ℝ) (hc : 0 < c) :
    multivariate_normal x 2 mean (c • (1 : Matrix (Fin 2) (Fin 2) ℝ)) =
      1 / (2 * Real.pi * c) *
        Real.exp (-((x 0 - mean 0) ^ 2 + (x 1 - mean 1) ^ 2) / (2 * c)) := by
  have hdet : (c • (1 : Matrix (Fin 2) (Fin 2) ℝ)).det = c ^ 2 := by
    rw [Matrix.det_smul, Matrix.det_one]
    norm_num
  have hinv : (c • (1 : Matrix (Fin 2) (Fin 2) ℝ))⁻¹ = c⁻¹ • 1 :=
    Matrix.inv_eq_right_inv (by
      rw [Matrix.smul_mul, Matrix.mul_smul, smul_smul, mul_inv_cancel₀ hc.ne',
        one_mul, one_smul])
  have hdot : Matrix.dotProduct (x - mean) (x - mean) =
      (x 0 - mean 0) ^ 2 + (x 1 - mean 1) ^ 2 := by
    simp [Matrix.dotProduct, Fin.sum_univ_two]
    ring
  have hsqrt : Real.sqrt ((2 * Real.pi) ^ 2 * c ^ 2) = 2 * Real.pi * c := by
    rw [← mul_pow]
    exact Real.sqrt_sq (by positivity)
  rw [multivariate_normal, hdet, hsqrt, hinv, Matrix.smul_mulVec_assoc,
    Matrix.one_mulVec, Matrix.smul_dotProduct, hdot]
  congr 1
  rw [smul_eq_mul, neg_div, neg_div, inv_mul_eq_div, div_div, mul_comm c 2]

theorem multivariate_normal_nonneg (x : Fin 2 → ℝ) (d : ℕ) (mean : Fin 2 → ℝ)
    (cov : Matrix (Fin 2) (Fin 2) ℝ) : 0 ≤ multivariate_normal x d mean cov := by
  rw [multivariate_normal]
  have h1 : 0 ≤ 1 / Real.sqrt ((2 * Real.pi) ^ d * cov.det) := by positivity
  exact mul_nonneg h1 (Real.exp_pos _).le

theorem initialize_gradients_getD (coords : List (Fin 2 → ℝ)) (sigma : ℝ)
    (v : ℕ) (x : Fin 2 → ℝ) (hx : coords.get? v = some x) :
    (initialize_gradients coords sigma).getD v 0 =
      multivariate_normal x 2 (bbox_mid coords)
        (sigma • (1 : Matrix (Fin 2) (Fin 2) ℝ)) := by
  rw [initialize_gradients, List.getD_eq_getElem?_getD, List.getElem?_map,
    ← List.get?_eq_getElem?, hx]
  rfl

/-- The bounding-box midpoint of the concrete embedding used for C6:
three points (0,0), (2,2), (1,1). -/
noncomputable def coordsC6 : List (Fin 2 → ℝ) := [![0, 0], ![2, 2], ![1, 1]]

theorem bbox_mid_coordsC6 : bbox_mid coordsC6 = ![1, 1] := by
  funext a
  fin_cases a
  · show (listMax (coordsC6.map (fun c => c 0)) +
      listMin (coordsC6.map (fun c => c 0))) / 2 = 1
    have h : coordsC6.map (fun c => c 0) = [0, 2, 1] := by simp [coordsC6]
    rw [h, listMax, listMin]
    norm_num [max_def, min_def]
  · show (listMax (coordsC6.map (fun c => c 1)) +
      listMin (coordsC6.map (fun c => c 1))) / 2 = 1
    have h : coordsC6.map (fun c => c 1) = [0, 2, 1] := by simp [coordsC6]
    rw [h, listMax, listMin]
    norm_num [max_def, min_def]

/-- C6: REFUTED as to the covariance.  The source sets
`cov = np.eye(2) * sigma` (simu.py line 466), i.e. the configured
`gaussianstd` is the variance itself; the claimed field with covariance
σ²·I differs at σ = 4: at the vertex sitting exactly on the bounding-box
midpoint the code's value is 1/(8π) while the claimed density is 1/(32π). -/
theorem initialize_gradients_not_sigma_squared :
    (initialize_gradients coordsC6 4).getD 2 0 ≠
      (initialize_gradients_claimed coordsC6 4).getD 2 0 := by
  have h2 : coordsC6.get? 2 = some ![1, 1] := rfl
  have hcode : (initialize_gradients coordsC6 4).getD 2 0 =
      1 / (2 * Real.pi * 4) := by
    rw [initialize_gradients_getD coordsC6 4 2 ![1, 1] h2, bbox_mid_coordsC6,
      multivariate_normal_smul_one _ _ 4 (by norm_num)]
    norm_num
  have hclaim : (initialize_gradients_claimed coordsC6 4).getD 2 0 =
      1 / (2 * Real.pi * 16) := by
    rw [initialize_gradients_claimed, List.getD_eq_getElem?_getD, List.getElem?_map,
      ← List.get?_eq_getElem?, h2]
    show multivariate_normal ![1, 1] 2 (bbox_mid coordsC6) (((4 : ℝ) ^ 2) • 1) =
      1 / (2 * Real.pi * 16)
    rw [bbox_mid_coordsC6, show ((4 : ℝ) ^ 2) = 16 from by norm_num,
      multivariate_normal_smul_one _ _ 16 (by norm_num)]
    norm_num
  rw [hcode, hclaim]
  intro heq
  have hpi := Real.pi_ne_zero
  field_simp at heq
  norm_num at heq

/-- C6 (amended): for every embedding and every σ > 0, the gradient field
assigns to each vertex the bivariate Gaussian density at its coordinate with
mean at the bounding-box midpoint and isotropic covariance σ·I — the
configured spread is used directly as the variance — which in closed form is
`1/(2πσ)·exp(−‖x−mu‖²/(2σ))`; and every assigned weight is ≥ 0. -/
theorem initialize_gradients_gaussian_form (coords : List (Fin 2 → ℝ))
    (sigma : ℝ) (hs : 0 < sigma) (v : ℕ) (x : Fin 2 → ℝ)
    (hx : coords.get? v = some x) :
    (initialize_gradients coords sigma).getD v 0 =
      1 / (2 * Real.pi * sigma) *
        Real.exp (-((x 0 - bbox_mid coords 0) ^ 2 +
          (x 1 - bbox_mid coords 1) ^ 2) / (2 * sigma)) ∧
    ∀ w ∈ initialize_gradients coords sigma, 0 ≤ w := by
  constructor
  · rw [initialize_gradients_getD coords sigma v x hx,
      multivariate_normal_smul_one x (bbox_mid coords) sigma hs]
  · intro w hw
    obtain ⟨y, _, hye⟩ := List.mem_map.mp hw
    exact hye ▸ multivariate_normal_nonneg y 2 (bbox_mid coords) _

/-- Witness for C6 (amended): the concrete 3-point embedding with σ = 4. -/
theorem initialize_gradients_gaussian_form_witness :
    (initialize_gradients coordsC6 4).getD 2 0 =
      1 / (2 * Real.pi * 4) *
        Real.exp (-((![1, 1] 0 - bbox_mid coordsC6 0) ^ 2 +
          (![1, 1] 1 - bbox_mid coordsC6 1) ^ 2) / (2 * 4)) ∧
    ∀ w ∈ initialize_gradients coordsC6 4, 0 ≤ w :=
  initialize_gradients_gaussian_form coordsC6 4 (by norm_num) 2 ![1, 1] rfl

/-- A standardized 4-point embedding (per-axis mean 0 and population
variance 1): x-coordinates (−1/3, −1/3, −1, 5/3), y-coordinates
(−1, −1, 1, 1).  Its bounding-box midpoint (1/3, 0) differs from its
centroid (the origin). -/
noncomputable def coordsC7 : List (Fin 2 → ℝ) :=
  [![-1/3, -1], ![-1/3, -1], ![-1, 1], ![5/3, 1]]

theorem bbox_mid_coordsC7 : bbox_mid coordsC7 = ![1/3, 0] := by
  funext a
  fin_cases a
  · show (listMax (coordsC7.map (fun c => c 0)) +
      listMin (coordsC7.map (fun c => c 0))) / 2 = 1/3
    have h : coordsC7.map (fun c => c 0) = [-1/3, -1/3, -1, 5/3] := by simp [coordsC7]
    rw [h, listMax, listMin]
    norm_num [max_def, min_def]
  · show (listMax (coordsC7.map (fun c => c 1)) +
      listMin (coordsC7.map (fun c => c 1))) / 2 = 0
    have h : coordsC7.map (fun c => c 1) = [-1, -1, 1, 1] := by simp [coordsC7]
    rw [h, listMax, listMin]
    norm_num [max_def, min_def]

/-- C7: REFUTED.  `coordsC7` is standardized (per-axis mean 0, population
variance 1, so after standardization the centroid is the origin), vertex 3
is strictly farther from the centroid than vertex 2 (34/9 > 2), yet its
gradient is NOT strictly smaller — the two gradients are equal, because the
field is centered at the bounding-box midpoint (1/3, 0), from which both
vertices are equidistant (squared distance 25/9).  Field values do not
strictly decrease with distance from the centroid. -/
theorem gradient_not_strictly_decreasing_from_centroid :
    ((coordsC7.map (fun c => c 0)).sum = 0 ∧
      (coordsC7.map (fun c => (c 0) ^ 2)).sum = 4 ∧
      (coordsC7.map (fun c => c 1)).sum = 0 ∧
      (coordsC7.map (fun c => (c 1) ^ 2)).sum = 4) ∧
    ((coordsC7.getD 3 0) 0 ^ 2 + (coordsC7.getD 3 0) 1 ^ 2 >
      (coordsC7.getD 2 0) 0 ^ 2 + (coordsC7.getD 2 0) 1 ^ 2) ∧
    ¬ ((initialize_gradients coordsC7 1).getD 3 0 <
        (initialize_gradients coordsC7 1).getD 2 0) := by
  refine ⟨⟨?_, ?_, ?_, ?_⟩, ?_, ?_⟩
  · norm_num [coordsC7]
  · norm_num [coordsC7]
  · norm_num [coordsC7]
  · norm_num [coordsC7]
  · show (![5/3, 1] : Fin 2 → ℝ) 0 ^ 2 + (![5/3, 1] : Fin 2 → ℝ) 1 ^ 2 >
      (![-1, 1] : Fin 2 → ℝ) 0 ^ 2 + (![-1, 1] : Fin 2 → ℝ) 1 ^ 2
    norm_num
  · have h3 : coordsC7.get? 3 = some ![5/3, 1] := rfl
    have h2 : coordsC7.get? 2 = some ![-1, 1] := rfl
    have hv3 : (initialize_gradients coordsC7 1).getD 3 0 =
        1 / (2 * Real.pi * 1) * Real.exp (-(25/9) / (2 * 1)) := by
      rw [initialize_gradients_getD coordsC7 1 3 ![5/3, 1] h3, bbox_mid_coordsC7,
        multivariate_normal_smul_one _ _ 1 one_pos]
      norm_num
    have hv2 : (initialize_gradients coordsC7 1).getD 2 0 =
        1 / (2 * Real.pi * 1) * Real.exp (-(25/9) / (2 * 1)) := by
      rw [initialize_gradients_getD coordsC7 1 2 ![-1, 1] h2, bbox_mid_coordsC7,
        multivariate_normal_smul_one _ _ 1 one_pos]
      norm_num
    rw [hv3, hv2]
    exact lt_irrefl _

theorem multivariate_normal_strict_anti (mean : Fin 2 → ℝ) (c : ℝ) (hc : 0 < c)
    (x y : Fin 2 → ℝ)
    (h : (x 0 - mean 0) ^ 2 + (x 1 - mean 1) ^ 2 <
      (y 0 - mean 0) ^ 2 + (y 1 - mean 1) ^ 2) :
    multivariate_normal y 2 mean (c • (1 : Matrix (Fin 2) (Fin 2) ℝ)) <
      multivariate_normal x 2 mean (c • (1 : Matrix (Fin 2) (Fin 2) ℝ)) := by
  rw [multivariate_normal_smul_one x mean c hc,
    multivariate_normal_smul_one y mean c hc]
  have hfac : 0 < 1 / (2 * Real.pi * c) := by positivity
  apply mul_lt_mul_of_pos_left _ hfac
  apply Real.exp_lt_exp.mpr
  have h2c : 0 < 2 * c := by linarith
  rw [neg_div, neg_div, neg_lt_neg_iff]
  exact div_lt_div_of_pos_right h h2c

/-- C7 (amended): gradient values strictly decrease with Euclidean distance
from the BOUNDING-BOX MIDPOINT of the embedding (the actual center of the
Gaussian), and no vertex value exceeds the density at the midpoint itself —
the field's peak is at the bounding-box midpoint rather than at the
centroid. -/
theorem gradient_decreasing_from_bbox_mid (coords : List (Fin 2 → ℝ))
    (sigma : ℝ) (hs : 0 < sigma) (u v : ℕ) (xu xv : Fin 2 → ℝ)
    (hu : coords.get? u = some xu) (hv : coords.get? v = some xv)
    (hdist : (xu 0 - bbox_mid coords 0) ^ 2 + (xu 1 - bbox_mid coords 1) ^ 2 <
      (xv 0 - bbox_mid coords 0) ^ 2 + (xv 1 - bbox_mid coords 1) ^ 2) :
    (initialize_gradients coords sigma).getD v 0 <
      (initialize_gradients coords sigma).getD u 0 ∧
    (initialize_gradients coords sigma).getD u 0 ≤
      multivariate_normal (bbox_mid coords) 2 (bbox_mid coords)
        (sigma • (1 : Matrix (Fin 2) (Fin 2) ℝ)) := by
  rw [initialize_gradients_getD coords sigma u xu hu,
    initialize_gradients_getD coords sigma v xv hv]
  constructor
  · exact multivariate_normal_strict_anti (bbox_mid coords) sigma hs xu xv hdist
  · rw [multivariate_normal_smul_one xu (bbox_mid coords) sigma hs,
      multivariate_normal_smul_one (bbox_mid coords) (bbox_mid coords) sigma hs]
    have hfac : 0 ≤ 1 / (2 * Real.pi * sigma) := by positivity
    apply mul_le_mul_of_nonneg_left _ hfac
    apply Real.exp_le_exp.mpr
    have hq : (bbox_mid coords 0 - bbox_mid coords 0) ^ 2 +
        (bbox_mid coords 1 - bbox_mid coords 1) ^ 2 = 0 := by ring
    rw [hq, neg_zero, zero_div]
    have hq0 : 0 ≤ (xu 0 - bbox_mid coords 0) ^ 2 +
        (xu 1 - bbox_mid coords 1) ^ 2 := by positivity
    exact div_nonpos_of_nonpos_of_nonneg (neg_nonpos.mpr hq0) (by linarith)

/-- Witness for C7 (amended): in `coordsC7`, vertex 0 is strictly closer to
the bounding-box midpoint than vertex 2, so its gradient is strictly
larger, and it is bounded by the field value at the midpoint. -/
theorem gradient_decreasing_from_bbox_mid_witness :
    (initialize_gradients coordsC7 1).getD 2 0 <
      (initialize_gradients coordsC7 1).getD 0 0 ∧
    (initialize_gradients coordsC7 1).getD 0 0 ≤
      multivariate_normal (bbox_mid coordsC7) 2 (bbox_mid coordsC7)
        ((1 : ℝ) • (1 : Matrix (Fin 2) (Fin 2) ℝ)) :=
  gradient_decreasing_from_bbox_mid coordsC7 1 one_pos 0 2 ![-1/3, -1] ![-1, 1]
    rfl rfl
    (by rw [bbox_mid_coordsC7]
        norm_num [Matrix.cons_val_zero, Matrix.cons_val_one, Matrix.head_cons])

/-- The configuration record consumed by `run_experiment` (simu.py lines
164-185), restricted to the fields the setup path reads. -/
structure Config where
  outdir : String
  expidx : String
  nvertices : ℕ
  topologymodel : String
  avgdegree : ℚ
  lathoroidal : Bool
  nepochs : ℤ
  s0 : ℚ
  i0 : ℚ
  r0 : ℚ
  beta : ℚ
  gamma : ℚ
  gaussianstd : ℚ

/-- Python `int()`: truncation toward zero (Lean's `Int` division
truncates toward zero). -/
def pyint (q : ℚ) : ℤ := q.num / (q.den : ℤ)

/-- Python 3 `round()`: round half to even. -/
def pyround (q : ℚ) : ℤ :=
  let f := ⌊q⌋
  let frac := q - f
  if frac < 1/2 then f
  else if 1/2 < frac then f + 1
  else if f % 2 = 0 then f else f + 1

/-- The graph-construction call selected by `generate_graph`
(simu.py lines 129-147), with the clamped parameters it receives:
lattice side `int(sqrt(nvertices))`, Erdős–Rényi probability clamped to ≤1,
preferential-attachment / small-world neighbor count `round(avgdegree/2)`
bumped to 1 when it is 0. -/
inductive GraphSpec
  | lattice (mapside : ℕ) (circular : Bool)
  | erdos (n : ℕ) (p : ℚ)
  | barabasi (n : ℕ) (m : ℤ)
  | watts (n : ℕ) (m : ℤ)
deriving DecidableEq

/-- `generate_graph` (simu.py lines 116-151): dispatch on the topology
kind.  For an unrecognized kind no branch assigns `g`/`layout` and line 149
(`np.array(layout.coords)`) raises UnboundLocalError — modelled as `none`.
The spatial layout and its standardization are consumed by
`initialize_gradients` and are modelled there. -/
def generate_graph (topologymodel : String) (nvertices : ℕ) (avgdegree : ℚ)
    (latticethoroidal : Bool) : Option GraphSpec :=
  if topologymodel = "la" then
    some (GraphSpec.lattice (Nat.sqrt nvertices) latticethoroidal)
  else if topologymodel = "er" then
    some (GraphSpec.erdos nvertices
      (if avgdegree / (nvertices : ℚ) > 1 then 1 else avgdegree / (nvertices : ℚ)))
  else if topologymodel = "ba" then
    some (GraphSpec.barabasi nvertices
      (if pyround (avgdegree / 2) = 0 then 1 else pyround (avgdegree / 2)))
  else if topologymodel = "ws" then
    some (GraphSpec.watts nvertices
      (if pyround (avgdegree / 2) = 0 then 1 else pyround (avgdegree / 2)))
  else none

/-- The status array built at simu.py lines 209-214: `s0` susceptible ids,
then `i0` infected, then `r0` recovered (`N = s0+i0+r0`); the subsequent
`np.random.shuffle` permutes it and is irrelevant to the setup claims. -/
def init_status (s0 i0 r0 : ℕ) : List ℕ :=
  List.replicate s0 SUSCEPTIBLE ++ List.replicate i0 INFECTED ++
    List.replicate r0 RECOVERED

/-- Outcome of the setup phase of `run_experiment`: the filesystem paths
written so far (in order), the status array built, and the generated graph
(`none` = the UnboundLocalError escape for an unrecognized topology). -/
structure SetupResult where
  written : List String
  status : List ℕ
  graph : Option GraphSpec
deriving DecidableEq

/-- The setup phase of `run_experiment` (simu.py lines 160-275), in source
order: no field of the configuration is validated; the experiment output
directory is created (line 195) and `config.json` written (line 205); the
status array is built from `s0 = int(2·nvertices·cfg.s0)` etc. (lines
209-214); only then is `generate_graph` called (line 240) — an
unrecognized topology fails there, after those effects; on success the
particle distribution and gradients are computed and `attraction.csv`
written (line 275).  (The early return when `sir.csv` already exists is
outside the fresh-run setting modelled here.) -/
def run_experiment_setup (cfg : Config) : SetupResult :=
  let outdir := cfg.outdir ++ "/" ++ cfg.expidx
  let nagents : ℚ := 2 * (cfg.nvertices : ℚ)
  let s0 := (pyint (nagents * cfg.s0)).toNat
  let i0 := (pyint (nagents * cfg.i0)).toNat
  let r0 := (pyint (nagents * cfg.r0)).toNat
  let written0 := [outdir, outdir ++ "/config.json"]
  let status := init_status s0 i0 r0
  match generate_graph cfg.topologymodel cfg.nvertices cfg.avgdegree
      cfg.lathoroidal with
  | none => ⟨written0, status, none⟩
  | some gs => ⟨written0 ++ [outdir ++ "/attraction.csv"], status, some gs⟩

/-- An invalid configuration: unrecognized topology kind "xx". -/
def cfgC9bad : Config :=
  ⟨"out", "e1", 4, "xx", 4, false, 10, 1/2, 1/2, 0, 1/2, 1/2, 1⟩

/-- A configuration whose topology is valid but whose fractions sum to 3
and whose β, γ lie outside [0,1]. -/
def cfgC9fracs : Config :=
  ⟨"out", "e2", 4, "la", 4, false, 10, 1, 1, 1, 3/2, -1/2, 1⟩

/-- C9: REFUTED.  For the unrecognized topology kind "xx" the experiment
does fail (UnboundLocalError inside `generate_graph`), but only after the
output directory and `config.json` have been written and the status array
built — so state is built and files are partially written, contradicting
fail-fast.  And a configuration with `s0+i0+r0 = 3 > 1`, `β = 3/2` and
`γ = −1/2` is not rejected at all: the setup completes and writes its
outputs. -/
theorem config_errors_not_failfast :
    ((run_experiment_setup cfgC9bad).graph = none ∧
      (run_experiment_setup cfgC9bad).written =
        ["out/e1", "out/e1/config.json"] ∧
      (run_experiment_setup cfgC9bad).status ≠ []) ∧
    (run_experiment_setup cfgC9fracs).graph ≠ none := by
  constructor
  · refine ⟨?_, ?_, ?_⟩
    · simp +decide [run_experiment_setup, generate_graph, cfgC9bad]
    · simp +decide [run_experiment_setup, generate_graph, cfgC9bad]
    · simp +decide [run_experiment_setup, generate_graph, cfgC9bad, init_status,
        pyint]
      rw [show (2 * 4 * 2⁻¹ : ℚ) = 4 from by norm_num]
      norm_num
  · simp +decide [run_experiment_setup, generate_graph, cfgC9fracs]

/-- C9 (amended): configuration errors are not checked up front.  An
unrecognized topology kind makes the setup fail only inside
`generate_graph`, after the output directory and `config.json` have been
written (and the status array built); any recognized topology kind
proceeds regardless of the fraction sums or of β, γ — fractions summing to
more than 1 and β or γ outside [0,1] are never rejected. -/
theorem config_errors_surface_late (cfg : Config) :
    (cfg.topologymodel ∉ (["la", "er", "ba", "ws"] : List String) →
      (run_experiment_setup cfg).graph = none ∧
      (run_experiment_setup cfg).written =
        [cfg.outdir ++ "/" ++ cfg.expidx,
          cfg.outdir ++ "/" ++ cfg.expidx ++ "/config.json"]) ∧
    (cfg.topologymodel ∈ (["la", "er", "ba", "ws"] : List String) →
      (run_experiment_setup cfg).graph ≠ none) := by
  constructor
  · intro hnot
    have h1 : cfg.topologymodel ≠ "la" := fun h => hnot (by simp [h])
    have h2 : cfg.topologymodel ≠ "er" := fun h => hnot (by simp [h])
    have h3 : cfg.topologymodel ≠ "ba" := fun h => hnot (by simp [h])
    have h4 : cfg.topologymodel ≠ "ws" := fun h => hnot (by simp [h])
    constructor <;>
      simp [run_experiment_setup, generate_graph, h1, h2, h3, h4]
  · intro hmem
    simp only [List.mem_cons, List.mem_singleton] at hmem
    rcases hmem with h | h | h | h | h
    · simp [run_experiment_setup, generate_graph, h]
    · simp +decide [run_experiment_setup, generate_graph, h]
    · simp +decide [run_experiment_setup, generate_graph, h]
    · simp +decide [run_experiment_setup, generate_graph, h]
    · simp at h

/-- Witness for C9 (amended): the concrete invalid-topology configuration
fails late with the directory and config file already written, and the
valid-topology configuration with invalid fractions and rates proceeds. -/
theorem config_errors_surface_late_witness :
    ((run_experiment_setup cfgC9bad).graph = none ∧
      (run_experiment_setup cfgC9bad).written =
        [cfgC9bad.outdir ++ "/" ++ cfgC9bad.expidx,
          cfgC9bad.outdir ++ "/" ++ cfgC9bad.expidx ++ "/config.json"]) ∧
    (run_experiment_setup cfgC9fracs).graph ≠ none :=
  ⟨(config_errors_surface_late cfgC9bad).1 (by decide),
    (config_errors_surface_late cfgC9fracs).2 (by decide)⟩

end EpidSpread
